import Mathlib

/-!
Shallow embedding of `language.py` (naming-language): phoneme inventories,
syllable synthesis by rejection sampling, and the lexicon generator
(`Language.get_morpheme` / `get_word` / `make_name`), together with the
orthography renderer and the restriction-pattern rewriting step.

Python's implicit global `random` state is modelled by an explicit stream
`Rng` threaded through every sampling function; machine floats are modelled
by `ℚ`.  The `re` engine's compiled-pattern search is kept abstract as a
function `String → String → Bool` (field `sem` of `Phonology`), while the
string rewriting performed by `Phonology._process_restriction` is embedded
concretely.  Unbounded `while True:` retry loops are embedded as fuel-indexed
recursions returning `none` when the fuel runs out, i.e. when the loop is
still running after that many iterations.
-/

namespace NamingLang

/-- Explicit model of the global pseudorandom source: a stream of naturals
(consumed by integer draws and element choices) and a stream of rationals
(consumed by real-valued draws), with a shared position counter. -/
structure Rng where
  ints : Nat → Nat
  reals : Nat → ℚ
  pos : Nat

/-- Consume one natural from the stream. -/
def Rng.nextNat (g : Rng) : Nat × Rng :=
  (g.ints g.pos, { g with pos := g.pos + 1 })

/-- Consume one rational from the stream. -/
def Rng.nextRat (g : Rng) : ℚ × Rng :=
  (g.reals g.pos, { g with pos := g.pos + 1 })

/-- Fractional part of a rational, computed on the numerator and
denominator directly (`q - ⌊q⌋`, always in `[0, 1)`). -/
def pyFract (q : ℚ) : ℚ :=
  mkRat (q.num % (q.den : ℤ)) q.den

/-- Model of `random.random()`: a value in `[0, 1)`, obtained as the
fractional part of the next rational in the stream. -/
def pyRandom (g : Rng) : ℚ × Rng :=
  let (r, g') := g.nextRat
  (pyFract r, g')

/-- Model of `random.randint(lo, hi)`: an integer from the inclusive range
`[lo, hi]`; every value of the range is reached by some stream. -/
def pyRandint (lo hi : Nat) (g : Rng) : Nat × Rng :=
  let (n, g') := g.nextNat
  (lo + n % (hi + 1 - lo), g')

/-- Model of `random.choice(xs)` / `random.sample(xs, 1)[0]`: an element of
`xs` selected by the next natural of the stream (Python raises on an empty
sequence; the embedding returns `""` there, an unreachable case at the call
sites, which guard for nonemptiness). -/
def pyChoice (xs : List String) (g : Rng) : String × Rng :=
  let (n, g') := g.nextNat
  (xs.getD (n % xs.length) "", g')

/-- Model of Python `str.capitalize()`: first character uppercased, the rest
lowercased (at the ASCII level of `Char.toUpper`/`Char.toLower`). -/
def pyCapitalize (s : String) : String :=
  match s.toList with
  | [] => ""
  | c :: rest => ⟨c.toUpper :: rest.map Char.toLower⟩

/-- Whether `a` occurs as a contiguous sublist of `b`. -/
def listInfix (a : List Char) : List Char → Bool
  | [] => a.isEmpty
  | c :: rest => List.isPrefixOf a (c :: rest) || listInfix a rest

/-- Model of Python substring containment `a in b` on strings. -/
def pySubstr (a b : String) : Bool :=
  listInfix a.toList b.toList

/-- A phoneme source, as stored in `Phonemes._phonemes`: either a uniform
collection of sound units (a string or list in Python) or a dictionary
mapping each unit to its relative frequency. -/
inductive PhonemeSrc where
  | uniform (syms : List String)
  | weighted (entries : List (String × ℚ))

/-- The `Phonemes` class: categories (single-character tags) mapped to
phoneme sources, in insertion order. -/
structure Phonemes where
  phonemes : List (Char × PhonemeSrc)

/-- The `get_categories` method: the list of category tags. -/
def Phonemes.get_categories (ph : Phonemes) : List Char :=
  ph.phonemes.map Prod.fst

/-- Dictionary lookup `self._phonemes[key]` (first matching entry; a missing
key, a `KeyError` in Python, yields an empty uniform source). -/
def Phonemes.get (ph : Phonemes) (c : Char) : PhonemeSrc :=
  (((ph.phonemes.find? fun kv => decide (kv.1 = c)).map Prod.snd).getD
    (.uniform []))

/-- Total weight of a weighted source: `sum(phonemes.values())`. -/
def totalWeight (entries : List (String × ℚ)) : ℚ :=
  (entries.map Prod.snd).sum

/-- The accumulating walk of `Phonemes.choose` over a weighted source:
`cumulative_frequency += frequency; if sample <= cumulative_frequency:
return phoneme`.  Falls through to `none` (Python returns `None`). -/
def chooseWeightedGo (sample : ℚ) : ℚ → List (String × ℚ) → Option String
  | _, [] => none
  | acc, (p, f) :: rest =>
    if sample ≤ acc + f then some p else chooseWeightedGo sample (acc + f) rest

/-- The weighted branch of `Phonemes.choose`, with the uniform draw
`sample = random.uniform(0, frequency_mass)` made explicit. -/
def chooseWeighted (entries : List (String × ℚ)) (sample : ℚ) : Option String :=
  chooseWeightedGo sample 0 entries

/-- The `choose` method: sample one sound unit from a category. -/
def Phonemes.choose (ph : Phonemes) (cat : Char) (g : Rng) : String × Rng :=
  match ph.get cat with
  | .uniform syms => pyChoice syms g
  | .weighted entries =>
    let mass := totalWeight entries
    let (r, g') := pyRandom g
    ((chooseWeighted entries (r * mass)).getD "", g')

/-- The symbols of a source in iteration order, as joined by
`''.join(self.phonemes[group])` (iterating a dict yields its keys). -/
def PhonemeSrc.symbols : PhonemeSrc → List String
  | .uniform syms => syms
  | .weighted entries => entries.map Prod.fst

/-- The `findall` of `([cats])(\??)` used by `make_syllable` on the structure
string: a left-to-right scan collecting (category, optional) steps and
skipping characters outside the categories. -/
def parseStructure (cats : List Char) : List Char → List (Char × Bool)
  | [] => []
  | [c] => if cats.contains c then [(c, false)] else []
  | c :: d :: rest =>
    if cats.contains c then
      if d = '?' then (c, true) :: parseStructure cats rest
      else (c, false) :: parseStructure cats (d :: rest)
    else parseStructure cats (d :: rest)

/-- The `fullmatch` of `([cats]\??)+` used by the structure setter: the
remainder of the structure string decomposes into tag-plus-optional-mark
tokens.  Deterministic because `?` is never a category tag
(`Phonemes.__setitem__` rejects it). -/
def validStructureGo (cats : List Char) : List Char → Bool
  | [] => true
  | [c] => cats.contains c
  | c :: d :: rest =>
    cats.contains c &&
      (if d = '?' then validStructureGo cats rest
       else validStructureGo cats (d :: rest))

/-- The structure setter's validity test: `(tag?)+` requires at least one
token, so the empty string is invalid. -/
def validStructure (cats : List Char) (s : String) : Bool :=
  !s.toList.isEmpty && validStructureGo cats s.toList

/-- Length of the leading run of escape characters. -/
def escRun : List Char → Nat
  | [] => 0
  | c :: rest => if c = '\\' then escRun rest + 1 else 0

/-- The bracket character class substituted for an activated placeholder:
`'[' + ''.join(self.phonemes[group]) + ']'`. -/
def category_class (ph : Phonemes) (t : Char) : List Char :=
  '[' :: (String.join (ph.get t).symbols).toList ++ [']']

/-- The scan of `re.sub` for the pattern `(?:\\\\)*(?:\\)([cats])`: at each
position, the pattern matches exactly when the maximal run of escape
characters starting there has odd length and is followed immediately by a
category tag; the whole run and the tag are then consumed and replaced by
the category's bracket class.  (The model assumes the escape character is
not itself a category tag; tags are single alphabetic characters.)  The
fuel argument, instantiated with the input length, makes the recursion
structural; each step consumes at least one character. -/
def processRestrictionGo (ph : Phonemes) : Nat → List Char → List Char
  | 0, l => l
  | _, [] => []
  | fuel + 1, c :: rest =>
    let l := c :: rest
    let k := escRun l
    match l.drop k with
    | t :: after =>
      if k % 2 = 1 && (ph.get_categories).contains t then
        category_class ph t ++ processRestrictionGo ph fuel after
      else c :: processRestrictionGo ph fuel rest
    | [] => c :: processRestrictionGo ph fuel rest

/-- The `_process_restriction` method: rewrite slash-category placeholders in
a restriction pattern into bracket classes (the subsequent `re.compile` is
modelled abstractly by `Phonology.sem`). -/
def process_restriction (ph : Phonemes) (regex : String) : String :=
  ⟨processRestrictionGo ph regex.toList.length regex.toList⟩

/-- The `Phonology` class.  The field `sem` models the `re` engine: `sem p s`
is whether the compiled pattern `p` matches anywhere in `s` (substring
search, `r.search`). -/
structure Phonology where
  phonemes : Phonemes
  struct : String
  restrictions : List String
  sem : String → String → Bool

/-- The `Phonology.__init__` constructor together with the `structure`
setter, which raises `ValueError` unless the structure string fully matches
`([cats]\??)+`; the restrictions are stored unexamined. -/
def Phonology.init (ph : Phonemes) (struct : String) (restrictions : List String)
    (sem : String → String → Bool) : Except String Phonology :=
  if validStructure ph.get_categories struct then
    .ok { phonemes := ph, struct := struct, restrictions := restrictions, sem := sem }
  else
    .error ("Invalid phoneme structure: " ++ struct)

/-- Whether an `Except` result is a success (`Except.ok`). -/
def exceptOk : Except String Phonology → Bool
  | .ok _ => true
  | .error _ => false

/-- The build phase of `make_syllable`: walk the parsed structure; an
optional step is skipped when `random.random() < 0.5` (the draw happens only
for optional steps, matching the short-circuit `and`), otherwise a phoneme
is chosen from the step's category and appended. -/
def buildSyllable (ph : Phonemes) : List (Char × Bool) → Rng → String × Rng
  | [], g => ("", g)
  | (t, opt) :: rest, g =>
    if opt then
      let (r, g') := pyRandom g
      if r < mkRat 1 2 then buildSyllable ph rest g'
      else
        let (p, g2) := ph.choose t g'
        let (s, g3) := buildSyllable ph rest g2
        (p ++ s, g3)
    else
      let (p, g') := ph.choose t g
      let (s, g2) := buildSyllable ph rest g'
      (p ++ s, g2)

/-- The `while True:` loop of `make_syllable`: build a candidate, restart
when any compiled restriction matches anywhere within it, accept otherwise.
`none` means the loop is still running after `fuel` iterations. -/
def makeSyllableLoop (ph : Phonemes) (steps : List (Char × Bool))
    (compiled : List (String → Bool)) : Nat → Rng → Option String × Rng
  | 0, g => (none, g)
  | fuel + 1, g =>
    let (syl, g') := buildSyllable ph steps g
    if compiled.any fun m => m syl then
      makeSyllableLoop ph steps compiled fuel g'
    else
      (some syl, g')

/-- The `make_syllable` method: process the restrictions, parse the
structure, then rejection-sample a syllable. -/
def Phonology.make_syllable (phon : Phonology) (g : Rng) (fuel : Nat) :
    Option String × Rng :=
  let compiled := phon.restrictions.map fun r =>
    phon.sem (process_restriction phon.phonemes r)
  let steps := parseStructure phon.phonemes.get_categories phon.struct.toList
  makeSyllableLoop phon.phonemes steps compiled fuel g

/-- The default orthography substitution table `DEFAULT_ORTHOGRAPHY` from
`sources/default.py`. -/
def DEFAULT_ORTHOGRAPHY : List (Char × String) :=
  [('ʃ', "sh"), ('ʒ', "zh"), ('ʧ', "ch"), ('ʤ', "j"), ('ŋ', "ng"),
   ('j', "y"), ('x', "kh"), ('ɣ', "gh"), ('ʔ', "‘"),
   ('A', "á"), ('E', "é"), ('I', "í"), ('O', "ó"), ('U', "ú")]

/-- Dictionary lookup with default, `m.get(c, dflt)`. -/
def mapGet (m : List (Char × String)) (c : Char) (dflt : String) : String :=
  (((m.find? fun kv => decide (kv.1 = c)).map Prod.snd).getD dflt)

/-- The `Orthography` class: per-character substitution maps. -/
structure Orthography where
  consonants : List (Char × String)
  vowels : List (Char × String)

/-- The `spell` method: accumulate, for each character of the word, its
substitution under the consonant map, else the vowel map, else the default
orthography, else the character itself. -/
def Orthography.spell (o : Orthography) (word : String) : String :=
  word.toList.foldl
    (fun spelled c =>
      spelled ++
        mapGet o.consonants c
          (mapGet o.vowels c
            (mapGet DEFAULT_ORTHOGRAPHY c (String.singleton c))))
    ""

/-- The per-character substitution chain of `spell`, made explicit for the
statement that `spell` acts independently on each character. -/
def spellChar (o : Orthography) (c : Char) : String :=
  mapGet o.consonants c
    (mapGet o.vowels c
      (mapGet DEFAULT_ORTHOGRAPHY c (String.singleton c)))

/-- A cache of the `Language` class (`self.morphemes`, `self.words`,
`self.names`): a Python dict from category key (`None` or a string) to the
ordered list of stored entries. -/
abbrev PyDict := List (Option String × List String)

/-- Dictionary lookup `d.get(k, [])` (first matching entry). -/
def dictGet : PyDict → Option String → List String
  | [], _ => []
  | (k', v) :: rest, k => if k' = k then v else dictGet rest k

/-- Dictionary assignment `d[k] = v` (replace the first matching entry, or
append a new one; Python dict keys are unique and insertion-ordered). -/
def dictSet : PyDict → Option String → List String → PyDict
  | [], k, v => [(k, v)]
  | (k', v') :: rest, k, v =>
    if k' = k then (k, v) :: rest else (k', v') :: dictSet rest k v

/-- Appending one entry to a cache bucket, as done by
`xs = d.get(k, []); xs.append(m); d[k] = xs`. -/
def dictAppend (d : PyDict) (k : Option String) (m : String) : PyDict :=
  dictSet d k (dictGet d k ++ [m])

/-- The membership test `any(x in xs for xs in d.values())`: since each
`xs` is a list, `x in xs` is exact list membership, not substring search. -/
def inAnyBucket (d : PyDict) (x : String) : Bool :=
  d.any fun kv => kv.2.contains x

/-- All entries of a cache, pooled across its category buckets. -/
def pooledEntries (d : PyDict) : List String :=
  (d.map Prod.snd).flatten

/-- The `Language` class: phonology, orthography, word and name
configuration, and the three append-only caches. -/
structure Language where
  phonology : Phonology
  orthography : Orthography
  min_syllables : Nat
  max_syllables : Nat
  min_namelen : Nat
  max_namelen : Nat
  joiner : String
  genitive : List String
  definitive : List String
  morphemes : PyDict
  words : PyDict
  names : PyDict

/-- The `while True:` loop of `get_morpheme`: synthesize a syllable, retry
while it is a member of some bucket of the morpheme cache, then store it
under the category and return it.  `none` means the loop is still running
after `fuel` iterations (or syllable synthesis itself never finished). -/
def getMorphemeLoop (cat : Option String) (sylFuel : Nat) :
    Nat → Language → Rng → Option String × Language × Rng
  | 0, l, g => (none, l, g)
  | fuel + 1, l, g =>
    let (syl?, g') := l.phonology.make_syllable g sylFuel
    match syl? with
    | none => (none, l, g')
    | some m =>
      if inAnyBucket l.morphemes m then
        getMorphemeLoop cat sylFuel fuel l g'
      else
        (some m, { l with morphemes := dictAppend l.morphemes cat m }, g')

/-- The `get_morpheme` method: with `new_factor` 10 for the anonymous
category and 1 otherwise, draw `random.randint(0, count + new_factor)`;
a draw below `count` returns `random.choice` of the existing bucket,
otherwise a new morpheme is synthesized, checked and stored. -/
def Language.get_morpheme (l : Language) (cat : Option String) (g : Rng)
    (fuel : Nat) : Option String × Language × Rng :=
  let new_factor : Nat := if cat = none then 10 else 1
  let count := (dictGet l.morphemes cat).length
  let (d, g') := pyRandint 0 (count + new_factor) g
  if d < count then
    let (m, g2) := pyChoice (dictGet l.morphemes cat) g'
    (some m, l, g2)
  else
    getMorphemeLoop cat fuel fuel l g'

/-- The `for i in range(syllable_count - 1)` loop of `make_word`: collect
that many anonymous-category morphemes in order. -/
def makeWordGo (fuel : Nat) :
    Nat → Language → Rng → Option (List String) × Language × Rng
  | 0, l, g => (some [], l, g)
  | n + 1, l, g =>
    let (m?, l', g') := l.get_morpheme none g fuel
    match m? with
    | none => (none, l', g')
    | some m =>
      let (rest?, l2, g2) := makeWordGo fuel n l' g'
      match rest? with
      | none => (none, l2, g2)
      | some rest => (some (m :: rest), l2, g2)

/-- The `make_word` method: draw the syllable count from
`randint(min_syllables, max_syllables)`, collect `count - 1` filler
morphemes and one category morpheme, and join them with `"."`. -/
def Language.make_word (l : Language) (cat : Option String) (g : Rng)
    (fuel : Nat) : Option String × Language × Rng :=
  let (cnt, g1) := pyRandint l.min_syllables l.max_syllables g
  let (fillers?, l1, g2) := makeWordGo fuel (cnt - 1) l g1
  match fillers? with
  | none => (none, l1, g2)
  | some fillers =>
    let (last?, l2, g3) := l1.get_morpheme cat g2 fuel
    match last? with
    | none => (none, l2, g3)
    | some lastM =>
      (some (String.intercalate "." (fillers ++ [lastM])), l2, g3)

/-- The `while True:` loop of `get_word`: make a word, retry while it is a
member of some bucket of the word cache, then store it under the category
and return it. -/
def getWordLoop (cat : Option String) (innerFuel : Nat) :
    Nat → Language → Rng → Option String × Language × Rng
  | 0, l, g => (none, l, g)
  | fuel + 1, l, g =>
    let (w?, l', g') := l.make_word cat g innerFuel
    match w? with
    | none => (none, l', g')
    | some w =>
      if inAnyBucket l'.words w then
        getWordLoop cat innerFuel fuel l' g'
      else
        (some w, { l' with words := dictAppend l'.words cat w }, g')

/-- The `get_word` method: with `new_factor` 3 for the anonymous category
and 2 otherwise, draw `random.randint(0, count + new_factor)`; a draw below
`count` returns `random.choice` of the existing bucket, otherwise a new word
is generated, checked and stored. -/
def Language.get_word (l : Language) (cat : Option String) (g : Rng)
    (fuel : Nat) : Option String × Language × Rng :=
  let new_factor : Nat := if cat = none then 3 else 2
  let count := (dictGet l.words cat).length
  let (d, g') := pyRandint 0 (count + new_factor) g
  if d < count then
    let (w, g2) := pyChoice (dictGet l.words cat) g'
    (some w, l, g2)
  else
    getWordLoop cat fuel fuel l g'

/-- A particle value in `make_name`: either the configured list (when the
configured `genitive`/`definitive` is nonempty, hence truthy) or a morpheme
string obtained from `get_morpheme`. -/
abbrev ParticleV := List String ⊕ String

/-- One particle resolution `self.genitive or self.get_morpheme('of')`:
the configured list when nonempty, else a lazily generated morpheme. -/
def resolveParticle (l : Language) (cfg : List String) (cat : String)
    (g : Rng) (fuel : Nat) : Option ParticleV × Language × Rng :=
  if cfg.isEmpty then
    let (m?, l', g') := l.get_morpheme (some cat) g fuel
    match m? with
    | none => (none, l', g')
    | some m => (some (.inr m), l', g')
  else
    (some (.inl cfg), l, g)

/-- The particle-resolution prelude of `make_name` (its first two lines):
resolve the genitive, then the definitive particle. -/
def Language.resolveParticles (l : Language) (g : Rng) (fuel : Nat) :
    Option (ParticleV × ParticleV) × Language × Rng :=
  let (gen?, l1, g1) := resolveParticle l l.genitive "of" g fuel
  match gen? with
  | none => (none, l1, g1)
  | some genV =>
    let (defn?, l2, g2) := resolveParticle l1 l1.definitive "the" g1 fuel
    match defn? with
    | none => (none, l2, g2)
    | some defV => (some (genV, defV), l2, g2)

/-- Model of `joiner.join(parts)` where a part may be a configured particle
list: joining anything but strings raises `TypeError` in Python, modelled by
`none`. -/
def partString : ParticleV → Option String
  | Sum.inr s => some s
  | Sum.inl _ => none

/-- The join itself, failing when any part is a configured particle list. -/
def joinParts (joiner : String) (parts : List ParticleV) : Option String :=
  (parts.mapM partString).map (String.intercalate joiner)

/-- Outcome of the tail of one `make_name` loop iteration: a final result
(success or abnormal stop), or a retry with the updated state. -/
inductive NameStep where
  | done (res : Option String) (l : Language) (g : Rng)
  | retry (l : Language) (g : Rng)

/-- The tail of one `make_name` loop iteration, from the candidate `name`
onward: with probability 0.1 prepend the definitive particle and
recapitalize; strip; retry when the length is out of bounds or the candidate
is a member of some bucket of the name cache; otherwise store under the
category and return. -/
def makeNameFinish (cat : Option String) (defV : ParticleV) (l : Language)
    (g : Rng) (name : String) : NameStep :=
  let (r5, g1) := pyRandom g
  let step1? : Option String :=
    if r5 < mkRat 1 10 then
      (joinParts l.joiner [defV, .inr name]).map pyCapitalize
    else
      some name
  match step1? with
  | none => .done none l g1
  | some nm1 =>
    let nm := nm1.trim
    if l.min_namelen > nm.length ∨ nm.length > l.max_namelen then
      .retry l g1
    else if inAnyBucket l.names nm then
      .retry l g1
    else
      .done (some nm) { l with names := dictAppend l.names cat nm } g1

/-- The `while True:` loop of `make_name`.  With probability 0.5 the name is
one capitalized category word; otherwise two words are drawn (each tagged
with the category with probability 0.6), equal words force a retry, and the
words are joined either directly (when the category is `'region'`, or on a
coin flip, with the flip drawn only when the category is not `'region'`) or
around the genitive particle. -/
def makeNameLoop (cat : Option String) (genV defV : ParticleV)
    (innerFuel : Nat) : Nat → Language → Rng → Option String × Language × Rng
  | 0, l, g => (none, l, g)
  | fuel + 1, l, g =>
    let (r1, g1) := pyRandom g
    if r1 < mkRat 1 2 then
      let (w?, l1, g2) := l.get_word cat g1 innerFuel
      match w? with
      | none => (none, l1, g2)
      | some w =>
        match makeNameFinish cat defV l1 g2 (pyCapitalize w) with
        | .done res l2 g3 => (res, l2, g3)
        | .retry l2 g3 => makeNameLoop cat genV defV innerFuel fuel l2 g3
    else
      let (r2, g2) := pyRandom g1
      let c1 := if r2 < mkRat 3 5 then cat else none
      let (r3, g3) := pyRandom g2
      let c2 := if r3 < mkRat 3 5 then cat else none
      let (w1?, l1, g4) := l.get_word c1 g3 innerFuel
      match w1? with
      | none => (none, l1, g4)
      | some w1 =>
        let (w2?, l2, g5) := l1.get_word c2 g4 innerFuel
        match w2? with
        | none => (none, l2, g5)
        | some w2 =>
          let w1c := pyCapitalize w1
          let w2c := pyCapitalize w2
          if w1c = w2c then
            makeNameLoop cat genV defV innerFuel fuel l2 g5
          else
            let (useDirect, g6) :=
              if cat = some "region" then (true, g5)
              else
                let (r4, g5') := pyRandom g5
                (r4 < mkRat 1 2, g5')
            let parts : List ParticleV :=
              if useDirect then [.inr w1c, .inr w2c]
              else [.inr w1c, genV, .inr w2c]
            match joinParts l2.joiner parts with
            | none => (none, l2, g6)
            | some nm =>
              match makeNameFinish cat defV l2 g6 nm with
              | .done res l3 g7 => (res, l3, g7)
              | .retry l3 g7 => makeNameLoop cat genV defV innerFuel fuel l3 g7

/-- The `make_name` method: resolve the particles, then run the
rejection-sampling name loop. -/
def Language.make_name (l : Language) (cat : Option String) (g : Rng)
    (fuel : Nat) : Option String × Language × Rng :=
  match l.resolveParticles g fuel with
  | (none, l1, g1) => (none, l1, g1)
  | (some (genV, defV), l2, g2) => makeNameLoop cat genV defV fuel fuel l2 g2

/-! Claim-level predicates and concrete scenario configurations. -/

/-- The spec's cache invariant, pooled across buckets: no entry is a
substring of another (nor an exact duplicate, via reflexive containment of
distinct positions being excluded by `Pairwise`). -/
def substrFree (d : PyDict) : Prop :=
  (pooledEntries d).Pairwise fun a b => pySubstr a b = false ∧ pySubstr b a = false

instance (d : PyDict) : Decidable (substrFree d) := by
  unfold substrFree
  exact List.instDecidablePairwise _

/-- Exact-duplicate freedom of a cache, pooled across buckets. -/
def cacheNodup (d : PyDict) : Prop :=
  (pooledEntries d).Nodup

instance (d : PyDict) : Decidable (cacheNodup d) := by
  unfold cacheNodup
  exact List.nodupDecidable _

/-- Configuration fields of a `Language` are untouched by a state step. -/
def ConfigEq (l l' : Language) : Prop :=
  l'.phonology = l.phonology ∧ l'.orthography = l.orthography ∧
  l'.min_syllables = l.min_syllables ∧ l'.max_syllables = l.max_syllables ∧
  l'.min_namelen = l.min_namelen ∧ l'.max_namelen = l.max_namelen ∧
  l'.joiner = l.joiner ∧ l'.genitive = l.genitive ∧ l'.definitive = l.definitive

/-- A lawful evolution of the `Language` state: configuration unchanged and
the pooled duplicate-freedom of each of the three caches preserved. -/
def Evolves (l l' : Language) : Prop :=
  ConfigEq l l' ∧
  (cacheNodup l.morphemes → cacheNodup l'.morphemes) ∧
  (cacheNodup l.words → cacheNodup l'.words) ∧
  (cacheNodup l.names → cacheNodup l'.names)

/-- The outcome distribution of the reuse draw of `get_morpheme`:
`random.randint(0, count + bias)` is uniform over the `count + bias + 1`
integers of the inclusive range, and the reuse branch is taken exactly on
draws below `count`; this is the probability of that event. -/
def reuseProbability (count bias : Nat) : ℚ :=
  ((((Finset.range (count + bias + 1)).filter fun r => r < count).card : ℚ)) /
    (((Finset.range (count + bias + 1)).card : ℚ))

/-- Search semantics of the compiled restriction `(.)\1`: some character is
immediately doubled. -/
def hasDoubled : List Char → Bool
  | a :: b :: rest => decide (a = b) || hasDoubled (b :: rest)
  | _ => false

/-- A model `re` engine for scenarios whose only restriction is `(.)\1`. -/
def semDoubled : String → String → Bool :=
  fun _ s => hasDoubled s.toList

/-- A model `re` engine for scenarios with no restrictions. -/
def semNone : String → String → Bool :=
  fun _ _ => false

/-- An all-zero random stream. -/
def rngZero : Rng :=
  { ints := fun _ => 0, reals := fun _ => mkRat 0 1, pos := 0 }

/-- Scenario B of the spec: inventory `C = {'p'}` only. -/
def phonemesB : Phonemes :=
  ⟨[('C', .uniform ["p"])]⟩

/-- Scenario B of the spec: structure `"CC"`, restriction `(.)\1`. -/
def phonologyB : Phonology :=
  { phonemes := phonemesB, struct := "CC", restrictions := ["(.)\\1"],
    sem := semDoubled }

/-- Scenario A of the spec: inventory `C = {'p','t'}`, `V = {'a'}`. -/
def phonemesA : Phonemes :=
  ⟨[('C', .uniform ["p", "t"]), ('V', .uniform ["a"])]⟩

/-- Scenario A of the spec with the doubled-character restriction added. -/
def phonologyA : Phonology :=
  { phonemes := phonemesA, struct := "CV", restrictions := ["(.)\\1"],
    sem := semDoubled }

/-- A two-phoneme single-category inventory used to reach a cache state
with entries in substring relation. -/
def phonemesAB : Phonemes :=
  ⟨[('C', .uniform ["p", "a"])]⟩

/-- Phonology over `phonemesAB` with structure `"CC?"` and no
restrictions: it can produce both `"pa"` and `"p"`. -/
def phonologyAB : Phonology :=
  { phonemes := phonemesAB, struct := "CC?", restrictions := [], sem := semNone }

/-- A pristine `Language` over `phonologyAB` (the constructor's defaults:
empty caches, empty particle configuration). -/
def langAB : Language :=
  { phonology := phonologyAB, orthography := ⟨[], []⟩,
    min_syllables := 1, max_syllables := 1,
    min_namelen := 5, max_namelen := 12, joiner := " ",
    genitive := [], definitive := [],
    morphemes := [], words := [], names := [] }

/-- A random stream steering `langAB.get_morpheme` to generate `"pa"` on a
first call and `"p"` on a second call. -/
def rngAB : Rng :=
  { ints := fun p => if p = 3 ∨ p = 4 then 1 else 0,
    reals := fun p => if p = 2 then mkRat 7 10 else mkRat 1 5,
    pos := 0 }

/-- The state after the first `get_morpheme` call of the substring
counterexample run. -/
def langAB1 : Language :=
  (langAB.get_morpheme none rngAB 4).2.1

/-- The stream position after the first call of that run. -/
def rngAB1 : Rng :=
  (langAB.get_morpheme none rngAB 4).2.2

/-- The state after the second `get_morpheme` call of that run. -/
def langAB2 : Language :=
  (langAB1.get_morpheme none rngAB1 4).2.1

/-- The inventory of the restriction-compilation scenarios: category `C`
with phonemes `abc`. -/
def phonemesC : Phonemes :=
  ⟨[('C', .uniform ["a", "b", "c"])]⟩

/-- The weighted distribution `{a: 1, b: 3}` of the spec's weighted-draw
test. -/
def weightedAB : List (String × ℚ) :=
  [("a", 1), ("b", 3)]

/-- A random stream steering `langAB.resolveParticles` to generate the
morpheme `"p"` for the `'of'` bucket and `"ap"` for the `'the'` bucket. -/
def rngRP : Rng :=
  { ints := fun p => if p = 4 then 1 else 0,
    reals := fun p => if p = 5 then mkRat 7 10 else mkRat 0 1,
    pos := 0 }

/-! Helper lemmas: caches, random primitives, and the characterization of
`get_morpheme` as "reuse without mutation, or append one checked entry". -/

theorem dictGet_dictSet_self (d : PyDict) (k : Option String) (v : List String) :
    dictGet (dictSet d k v) k = v := by
  induction d with
  | nil => simp [dictSet, dictGet]
  | cons kv rest ih =>
    obtain ⟨k', v'⟩ := kv
    by_cases h : k' = k
    · simp [dictSet, dictGet, h]
    · simp [dictSet, dictGet, h, ih]

theorem dictGet_dictSet_ne (d : PyDict) (k k' : Option String) (v : List String)
    (h : k' ≠ k) : dictGet (dictSet d k v) k' = dictGet d k' := by
  induction d with
  | nil => simp [dictSet, dictGet, Ne.symm h]
  | cons kv rest ih =>
    obtain ⟨k0, v0⟩ := kv
    by_cases h0 : k0 = k
    · subst h0
      simp [dictSet, dictGet, Ne.symm h]
    · simp [dictSet, dictGet, h0, ih]

theorem pooled_cons (k : Option String) (v : List String) (d : PyDict) :
    pooledEntries ((k, v) :: d) = v ++ pooledEntries d := by
  simp [pooledEntries]

theorem pooled_dictAppend_perm (d : PyDict) (k : Option String) (m : String) :
    (pooledEntries (dictAppend d k m)).Perm (m :: pooledEntries d) := by
  induction d with
  | nil => simp [dictAppend, dictSet, dictGet, pooledEntries]
  | cons kv rest ih =>
    obtain ⟨k0, v0⟩ := kv
    by_cases h0 : k0 = k
    · subst h0
      have h1 : dictAppend ((k0, v0) :: rest) k0 m = (k0, v0 ++ [m]) :: rest := by
        simp [dictAppend, dictGet, dictSet]
      rw [h1, pooled_cons, pooled_cons]
      have h2 : (v0 ++ [m]) ++ pooledEntries rest
          = v0 ++ m :: pooledEntries rest := by
        simp
      rw [h2]
      exact List.perm_middle
    · have h1 : dictAppend ((k0, v0) :: rest) k m
          = (k0, v0) :: dictAppend rest k m := by
        simp [dictAppend, dictGet, dictSet, h0]
      rw [h1, pooled_cons, pooled_cons]
      exact (ih.append_left v0).trans List.perm_middle

theorem inAnyBucket_iff (d : PyDict) (x : String) :
    inAnyBucket d x = true ↔ x ∈ pooledEntries d := by
  simp only [inAnyBucket, pooledEntries, List.any_eq_true, List.mem_flatten,
    List.mem_map]
  constructor
  · rintro ⟨kv, hkv, hx⟩
    exact ⟨kv.2, ⟨kv, hkv, rfl⟩, List.elem_iff.mp hx⟩
  · rintro ⟨l, ⟨kv, hkv, rfl⟩, hx⟩
    exact ⟨kv, hkv, List.elem_iff.mpr hx⟩

theorem mem_dictGet_pooled (d : PyDict) (k : Option String) (x : String)
    (hx : x ∈ dictGet d k) : x ∈ pooledEntries d := by
  induction d with
  | nil => simp [dictGet] at hx
  | cons kv rest ih =>
    obtain ⟨k0, v0⟩ := kv
    simp only [pooledEntries, List.map_cons, List.flatten_cons, List.mem_append]
    by_cases h0 : k0 = k
    · simp [dictGet, h0] at hx
      exact Or.inl hx
    · simp [dictGet, h0] at hx
      exact Or.inr (ih hx)

theorem pyChoice_mem (xs : List String) (g : Rng) (h : xs ≠ []) :
    (pyChoice xs g).1 ∈ xs := by
  have hlen : 0 < xs.length := List.length_pos.mpr h
  have hlt : g.ints g.pos % xs.length < xs.length := Nat.mod_lt _ hlen
  simp only [pyChoice, Rng.nextNat]
  rw [List.getD_eq_getElem xs "" hlt]
  exact List.getElem_mem hlt

theorem getMorphemeLoop_spec (cat : Option String) (sf : Nat) :
    ∀ (n : Nat) (l : Language) (g : Rng),
      ((getMorphemeLoop cat sf n l g).1 = none ∧
        (getMorphemeLoop cat sf n l g).2.1 = l) ∨
      ∃ m, (getMorphemeLoop cat sf n l g).1 = some m ∧
        inAnyBucket l.morphemes m = false ∧
        (getMorphemeLoop cat sf n l g).2.1 =
          { l with morphemes := dictAppend l.morphemes cat m } := by
  intro n
  induction n with
  | zero => intro l g; left; simp [getMorphemeLoop]
  | succ n ih =>
    intro l g
    simp only [getMorphemeLoop]
    cases hms : l.phonology.make_syllable g sf with
    | mk syl? g' =>
      cases syl? with
      | none => left; simp
      | some m =>
        by_cases hb : inAnyBucket l.morphemes m
        · simpa [hb] using ih l g'
        · right
          exact ⟨m, by simp [hb], by simp [hb], by simp [hb]⟩

theorem get_morpheme_spec (l : Language) (cat : Option String) (g : Rng)
    (fuel : Nat) :
    ((∀ m, (l.get_morpheme cat g fuel).1 = some m →
        m ∈ dictGet l.morphemes cat) ∧
      (l.get_morpheme cat g fuel).2.1 = l) ∨
    ∃ m, (l.get_morpheme cat g fuel).1 = some m ∧
      inAnyBucket l.morphemes m = false ∧
      (l.get_morpheme cat g fuel).2.1 =
        { l with morphemes := dictAppend l.morphemes cat m } := by
  simp only [Language.get_morpheme]
  by_cases hd : (pyRandint 0 ((dictGet l.morphemes cat).length +
      if cat = none then 10 else 1) g).1 < (dictGet l.morphemes cat).length
  · rw [if_pos hd]
    left
    have hpos : 0 < (dictGet l.morphemes cat).length :=
      Nat.lt_of_le_of_lt (Nat.zero_le _) hd
    have hne : dictGet l.morphemes cat ≠ [] := List.length_pos.mp hpos
    refine ⟨?_, rfl⟩
    intro m hm
    simp only [Option.some.injEq] at hm
    rw [← hm]
    exact pyChoice_mem (dictGet l.morphemes cat) _ hne
  · rw [if_neg hd]
    rcases getMorphemeLoop_spec cat fuel fuel l
        (pyRandint 0 ((dictGet l.morphemes cat).length +
          if cat = none then 10 else 1) g).2 with ⟨hnone, hstate⟩ | hr
    · left
      refine ⟨?_, hstate⟩
      intro m hm
      rw [hnone] at hm
      exact absurd hm (by simp)
    · right
      exact hr

theorem evolves_refl (l : Language) : Evolves l l :=
  ⟨⟨rfl, rfl, rfl, rfl, rfl, rfl, rfl, rfl, rfl⟩, id, id, id⟩

theorem evolves_trans {a b c : Language} (h1 : Evolves a b) (h2 : Evolves b c) :
    Evolves a c := by
  obtain ⟨⟨c1, c2, c3, c4, c5, c6, c7, c8, c9⟩, m1, w1, n1⟩ := h1
  obtain ⟨⟨d1, d2, d3, d4, d5, d6, d7, d8, d9⟩, m2, w2, n2⟩ := h2
  exact ⟨⟨d1.trans c1, d2.trans c2, d3.trans c3, d4.trans c4, d5.trans c5,
    d6.trans c6, d7.trans c7, d8.trans c8, d9.trans c9⟩,
    fun h => m2 (m1 h), fun h => w2 (w1 h), fun h => n2 (n1 h)⟩

theorem nodup_after_append {d : PyDict} {k : Option String} {m : String}
    (hc : inAnyBucket d m = false) (hn : cacheNodup d) :
    cacheNodup (dictAppend d k m) := by
  have hnotmem : m ∉ pooledEntries d := by
    intro hmem
    rw [(inAnyBucket_iff d m).mpr hmem] at hc
    exact Bool.true_eq_false.mp hc
  have hperm := pooled_dictAppend_perm d k m
  exact hperm.nodup_iff.mpr (List.nodup_cons.mpr ⟨hnotmem, hn⟩)

theorem get_morpheme_evolves (l : Language) (cat : Option String) (g : Rng)
    (fuel : Nat) : Evolves l (l.get_morpheme cat g fuel).2.1 := by
  rcases get_morpheme_spec l cat g fuel with ⟨_, hstate⟩ | ⟨m, _, hc, hstate⟩
  · rw [hstate]; exact evolves_refl l
  · rw [hstate]
    exact ⟨⟨rfl, rfl, rfl, rfl, rfl, rfl, rfl, rfl, rfl⟩,
      fun h => nodup_after_append hc h, id, id⟩

theorem get_morpheme_words (l : Language) (cat : Option String) (g : Rng)
    (fuel : Nat) : (l.get_morpheme cat g fuel).2.1.words = l.words := by
  rcases get_morpheme_spec l cat g fuel with ⟨_, hstate⟩ | ⟨m, _, _, hstate⟩ <;>
    rw [hstate]

theorem get_morpheme_names (l : Language) (cat : Option String) (g : Rng)
    (fuel : Nat) : (l.get_morpheme cat g fuel).2.1.names = l.names := by
  rcases get_morpheme_spec l cat g fuel with ⟨_, hstate⟩ | ⟨m, _, _, hstate⟩ <;>
    rw [hstate]

theorem get_morpheme_bucket_frame (l : Language) (cat : Option String) (g : Rng)
    (fuel : Nat) (k : Option String) (hk : k ≠ cat) :
    dictGet (l.get_morpheme cat g fuel).2.1.morphemes k = dictGet l.morphemes k := by
  rcases get_morpheme_spec l cat g fuel with ⟨_, hstate⟩ | ⟨m, _, _, hstate⟩
  · rw [hstate]
  · rw [hstate]
    exact dictGet_dictSet_ne l.morphemes cat k _ hk

theorem get_morpheme_mem (l : Language) (cat : Option String) (g : Rng)
    (fuel : Nat) (m : String) (hm : (l.get_morpheme cat g fuel).1 = some m) :
    m ∈ dictGet (l.get_morpheme cat g fuel).2.1.morphemes cat := by
  rcases get_morpheme_spec l cat g fuel with ⟨hmem, hstate⟩ | ⟨m', hm', _, hstate⟩
  · rw [hstate]
    exact hmem m hm
  · rw [hm'] at hm
    simp only [Option.some.injEq] at hm
    subst hm
    rw [hstate]
    show m' ∈ dictGet (dictAppend l.morphemes cat m') cat
    rw [dictAppend, dictGet_dictSet_self]
    exact List.mem_append_right _ (List.mem_singleton.mpr rfl)

theorem get_morpheme_config (l : Language) (cat : Option String) (g : Rng)
    (fuel : Nat) : ConfigEq l (l.get_morpheme cat g fuel).2.1 :=
  (get_morpheme_evolves l cat g fuel).1

theorem makeWordGo_spec (fuel : Nat) :
    ∀ (n : Nat) (l : Language) (g : Rng),
      Evolves l (makeWordGo fuel n l g).2.1 ∧
      (makeWordGo fuel n l g).2.1.words = l.words ∧
      (makeWordGo fuel n l g).2.1.names = l.names := by
  intro n
  induction n with
  | zero => intro l g; exact ⟨evolves_refl l, rfl, rfl⟩
  | succ n ih =>
    intro l g
    simp only [makeWordGo]
    cases hgm : l.get_morpheme none g fuel with
    | mk m? rest =>
      obtain ⟨l', g'⟩ := rest
      have he1 : Evolves l l' := by
        have := get_morpheme_evolves l none g fuel
        rwa [hgm] at this
      have hw1 : l'.words = l.words := by
        have := get_morpheme_words l none g fuel
        rwa [hgm] at this
      have hn1 : l'.names = l.names := by
        have := get_morpheme_names l none g fuel
        rwa [hgm] at this
      cases m? with
      | none => exact ⟨he1, hw1, hn1⟩
      | some m =>
        cases hrec : makeWordGo fuel n l' g' with
        | mk rest? rest2 =>
          obtain ⟨l2, g2⟩ := rest2
          have hrec' := ih l' g'
          rw [hrec] at hrec'
          obtain ⟨he2, hw2, hn2⟩ := hrec'
          cases rest? with
          | none => exact ⟨evolves_trans he1 he2, hw2.trans hw1, hn2.trans hn1⟩
          | some rest =>
            exact ⟨evolves_trans he1 he2, hw2.trans hw1, hn2.trans hn1⟩

theorem make_word_spec (l : Language) (cat : Option String) (g : Rng)
    (fuel : Nat) :
    Evolves l (l.make_word cat g fuel).2.1 ∧
    (l.make_word cat g fuel).2.1.words = l.words ∧
    (l.make_word cat g fuel).2.1.names = l.names := by
  simp only [Language.make_word]
  cases hgo : makeWordGo fuel ((pyRandint l.min_syllables l.max_syllables g).1 - 1)
      l (pyRandint l.min_syllables l.max_syllables g).2 with
  | mk fillers? rest =>
    obtain ⟨l1, g2⟩ := rest
    have hgo' := makeWordGo_spec fuel
      ((pyRandint l.min_syllables l.max_syllables g).1 - 1) l
      (pyRandint l.min_syllables l.max_syllables g).2
    rw [hgo] at hgo'
    obtain ⟨he1, hw1, hn1⟩ := hgo'
    cases fillers? with
    | none => exact ⟨he1, hw1, hn1⟩
    | some fillers =>
      cases hgm : l1.get_morpheme cat g2 fuel with
      | mk last? rest2 =>
        obtain ⟨l2, g3⟩ := rest2
        have he2 : Evolves l1 l2 := by
          have := get_morpheme_evolves l1 cat g2 fuel
          rwa [hgm] at this
        have hw2 : l2.words = l1.words := by
          have := get_morpheme_words l1 cat g2 fuel
          rwa [hgm] at this
        have hn2 : l2.names = l1.names := by
          have := get_morpheme_names l1 cat g2 fuel
          rwa [hgm] at this
        cases last? with
        | none => exact ⟨evolves_trans he1 he2, hw2.trans hw1, hn2.trans hn1⟩
        | some lastM => exact ⟨evolves_trans he1 he2, hw2.trans hw1, hn2.trans hn1⟩

theorem getWordLoop_spec (cat : Option String) (ifuel : Nat) :
    ∀ (n : Nat) (l : Language) (g : Rng),
      (Evolves l (getWordLoop cat ifuel n l g).2.1 ∧
        (getWordLoop cat ifuel n l g).2.1.names = l.names) ∧
      (((getWordLoop cat ifuel n l g).1 = none ∧
          (getWordLoop cat ifuel n l g).2.1.words = l.words) ∨
        ∃ w, (getWordLoop cat ifuel n l g).1 = some w ∧
          inAnyBucket l.words w = false ∧
          (getWordLoop cat ifuel n l g).2.1.words = dictAppend l.words cat w) := by
  intro n
  induction n with
  | zero =>
    intro l g
    exact ⟨⟨evolves_refl l, rfl⟩, Or.inl ⟨rfl, rfl⟩⟩
  | succ n ih =>
    intro l g
    simp only [getWordLoop]
    cases hmw : l.make_word cat g ifuel with
    | mk w? rest =>
      obtain ⟨l', g'⟩ := rest
      have hmw' := make_word_spec l cat g ifuel
      rw [hmw] at hmw'
      obtain ⟨he0, hw0, hn0⟩ := hmw'
      have he1 : Evolves l l' := he0
      have hw1 : l'.words = l.words := hw0
      have hn1 : l'.names = l.names := hn0
      cases w? with
      | none => exact ⟨⟨he1, hn1⟩, Or.inl ⟨rfl, hw1⟩⟩
      | some w =>
        by_cases hb : inAnyBucket l'.words w
        · have ih' := ih l' g'
          simp only [hb, if_true]
          refine ⟨⟨evolves_trans he1 ih'.1.1, ih'.1.2.trans hn1⟩, ?_⟩
          rcases ih'.2 with ⟨hnone, hwn⟩ | ⟨w2, hw2, hc2, hset2⟩
          · exact Or.inl ⟨hnone, hwn.trans hw1⟩
          · exact Or.inr ⟨w2, hw2, by rwa [hw1] at hc2, by rw [hset2, hw1]⟩
        · have hb' : inAnyBucket l'.words w = false := by
            simpa using hb
          simp only [hb, if_false]
          have hcfg : ConfigEq l' ({ l' with words := dictAppend l'.words cat w }) :=
            ⟨rfl, rfl, rfl, rfl, rfl, rfl, rfl, rfl, rfl⟩
          refine ⟨⟨evolves_trans he1 ⟨hcfg, id, ?_, id⟩, hn1⟩,
            Or.inr ⟨w, rfl, by rwa [hw1] at hb', by simp [hw1]⟩⟩
          intro h
          exact nodup_after_append hb' h

theorem get_word_spec (l : Language) (cat : Option String) (g : Rng)
    (fuel : Nat) :
    (Evolves l (l.get_word cat g fuel).2.1 ∧
      (l.get_word cat g fuel).2.1.names = l.names) ∧
    (((l.get_word cat g fuel).2.1.words = l.words ∧
        ∀ w, (l.get_word cat g fuel).1 = some w → w ∈ dictGet l.words cat) ∨
      ∃ w, (l.get_word cat g fuel).1 = some w ∧
        inAnyBucket l.words w = false ∧
        (l.get_word cat g fuel).2.1.words = dictAppend l.words cat w) := by
  simp only [Language.get_word]
  by_cases hd : (pyRandint 0 ((dictGet l.words cat).length +
      if cat = none then 3 else 2) g).1 < (dictGet l.words cat).length
  · rw [if_pos hd]
    have hpos : 0 < (dictGet l.words cat).length :=
      Nat.lt_of_le_of_lt (Nat.zero_le _) hd
    have hne : dictGet l.words cat ≠ [] := List.length_pos.mp hpos
    refine ⟨⟨evolves_refl l, rfl⟩, Or.inl ⟨rfl, ?_⟩⟩
    intro w hw
    simp only [Option.some.injEq] at hw
    rw [← hw]
    exact pyChoice_mem (dictGet l.words cat) _ hne
  · rw [if_neg hd]
    have := getWordLoop_spec cat fuel fuel l
      (pyRandint 0 ((dictGet l.words cat).length +
        if cat = none then 3 else 2) g).2
    obtain ⟨⟨he, hn⟩, hres⟩ := this
    refine ⟨⟨he, hn⟩, ?_⟩
    rcases hres with ⟨hnone, hwn⟩ | ⟨w, hw, hc, hset⟩
    · left
      refine ⟨hwn, ?_⟩
      intro w hw
      rw [hnone] at hw
      exact absurd hw (by simp)
    · exact Or.inr ⟨w, hw, hc, hset⟩

theorem get_word_evolves (l : Language) (cat : Option String) (g : Rng)
    (fuel : Nat) : Evolves l (l.get_word cat g fuel).2.1 :=
  (get_word_spec l cat g fuel).1.1

theorem get_word_names (l : Language) (cat : Option String) (g : Rng)
    (fuel : Nat) : (l.get_word cat g fuel).2.1.names = l.names :=
  (get_word_spec l cat g fuel).1.2

theorem resolveParticle_spec (l : Language) (cfg : List String) (cat : String)
    (g : Rng) (fuel : Nat) :
    Evolves l (resolveParticle l cfg cat g fuel).2.1 ∧
    (resolveParticle l cfg cat g fuel).2.1.words = l.words ∧
    (resolveParticle l cfg cat g fuel).2.1.names = l.names ∧
    (∀ k, k ≠ some cat →
      dictGet (resolveParticle l cfg cat g fuel).2.1.morphemes k =
        dictGet l.morphemes k) ∧
    (∀ pv, (resolveParticle l cfg cat g fuel).1 = some pv →
      (cfg = [] → ∃ m, pv = Sum.inr m ∧
        m ∈ dictGet (resolveParticle l cfg cat g fuel).2.1.morphemes (some cat)) ∧
      (cfg ≠ [] → pv = Sum.inl cfg)) := by
  by_cases hc : cfg.isEmpty
  · have hcfg : cfg = [] := List.isEmpty_iff.mp hc
    simp only [resolveParticle, hc, if_true]
    cases hgm : l.get_morpheme (some cat) g fuel with
    | mk m? rest =>
      obtain ⟨l', g'⟩ := rest
      have he : Evolves l l' := by
        have := get_morpheme_evolves l (some cat) g fuel
        rwa [hgm] at this
      have hw : l'.words = l.words := by
        have := get_morpheme_words l (some cat) g fuel
        rwa [hgm] at this
      have hn : l'.names = l.names := by
        have := get_morpheme_names l (some cat) g fuel
        rwa [hgm] at this
      have hf : ∀ k, k ≠ some cat →
          dictGet l'.morphemes k = dictGet l.morphemes k := by
        intro k hk
        have := get_morpheme_bucket_frame l (some cat) g fuel k hk
        rwa [hgm] at this
      cases m? with
      | none =>
        refine ⟨he, hw, hn, hf, ?_⟩
        intro pv hpv
        exact absurd hpv (by simp)
      | some m =>
        refine ⟨he, hw, hn, hf, ?_⟩
        intro pv hpv
        simp only [Option.some.injEq] at hpv
        subst hpv
        refine ⟨fun _ => ⟨m, rfl, ?_⟩, fun hne => absurd hcfg hne⟩
        have := get_morpheme_mem l (some cat) g fuel m (by rw [hgm])
        rwa [hgm] at this
  · have hcfg : cfg ≠ [] := by
      intro h
      rw [h] at hc
      exact hc (by simp)
    simp only [resolveParticle, hc, if_false]
    refine ⟨evolves_refl l, rfl, rfl, fun k _ => rfl, ?_⟩
    intro pv hpv
    have hpv' : Sum.inl cfg = pv := by simpa using hpv
    subst hpv'
    exact ⟨fun h => absurd h hcfg, fun _ => rfl⟩

theorem makeNameFinish_spec (cat : Option String) (defV : ParticleV)
    (l : Language) (g : Rng) (name : String) :
    (∃ g1, makeNameFinish cat defV l g name = .done none l g1) ∨
    (∃ g1, makeNameFinish cat defV l g name = .retry l g1) ∨
    (∃ nm g1, inAnyBucket l.names nm = false ∧
      makeNameFinish cat defV l g name =
        .done (some nm) { l with names := dictAppend l.names cat nm } g1) := by
  simp only [makeNameFinish]
  by_cases hr5 : (pyRandom g).1 < mkRat 1 10
  · rw [if_pos hr5]
    cases hj : joinParts l.joiner [defV, .inr name] with
    | none =>
      exact Or.inl ⟨(pyRandom g).2, rfl⟩
    | some s =>
      simp only [Option.map_some']
      by_cases hlen : l.min_namelen > (pyCapitalize s).trim.length ∨
          (pyCapitalize s).trim.length > l.max_namelen
      · rw [if_pos hlen]
        exact Or.inr (Or.inl ⟨(pyRandom g).2, rfl⟩)
      · rw [if_neg hlen]
        by_cases hmem : inAnyBucket l.names (pyCapitalize s).trim
        · rw [if_pos hmem]
          exact Or.inr (Or.inl ⟨(pyRandom g).2, rfl⟩)
        · rw [if_neg hmem]
          exact Or.inr (Or.inr ⟨(pyCapitalize s).trim, (pyRandom g).2,
            by simpa using hmem, rfl⟩)
  · rw [if_neg hr5]
    dsimp only
    by_cases hlen : l.min_namelen > name.trim.length ∨
        name.trim.length > l.max_namelen
    · rw [if_pos hlen]
      exact Or.inr (Or.inl ⟨(pyRandom g).2, rfl⟩)
    · rw [if_neg hlen]
      by_cases hmem : inAnyBucket l.names name.trim
      · rw [if_pos hmem]
        exact Or.inr (Or.inl ⟨(pyRandom g).2, rfl⟩)
      · rw [if_neg hmem]
        exact Or.inr (Or.inr ⟨name.trim, (pyRandom g).2,
          by simpa using hmem, rfl⟩)

theorem makeNameFinish_evolves (cat : Option String) (defV : ParticleV)
    (l : Language) (g : Rng) (name : String) (res : Option String)
    (l' : Language) (g' : Rng)
    (h : makeNameFinish cat defV l g name = .done res l' g') :
    Evolves l l' := by
  rcases makeNameFinish_spec cat defV l g name with
    ⟨g1, heq⟩ | ⟨g1, heq⟩ | ⟨nm, g1, hc, heq⟩ <;> rw [heq] at h
  · cases h
    exact evolves_refl l
  · cases h
  · cases h
    exact ⟨⟨rfl, rfl, rfl, rfl, rfl, rfl, rfl, rfl, rfl⟩, id, id,
      fun hn => nodup_after_append hc hn⟩

theorem nameTail_evolves (cat : Option String) (genV defV : ParticleV)
    (ifuel n : Nat)
    (ih : ∀ (l : Language) (g : Rng),
      Evolves l (makeNameLoop cat genV defV ifuel n l g).2.1)
    (l0 l2 : Language) (g6 : Rng) (parts : List ParticleV)
    (he : Evolves l0 l2) :
    Evolves l0
      ((match joinParts l2.joiner parts with
        | none => (none, l2, g6)
        | some nm =>
          match makeNameFinish cat defV l2 g6 nm with
          | .done res l3 g7 => (res, l3, g7)
          | .retry l3 g7 => makeNameLoop cat genV defV ifuel n l3 g7) :
        Option String × Language × Rng).2.1 := by
  cases hjp : joinParts l2.joiner parts with
  | none => exact he
  | some nm =>
    dsimp only
    rcases makeNameFinish_spec cat defV l2 g6 nm with
      ⟨g7, heq⟩ | ⟨g7, heq⟩ | ⟨nm2, g7, hc, heq⟩ <;> rw [heq]
    · exact he
    · exact evolves_trans he (ih l2 g7)
    · exact evolves_trans he ⟨⟨rfl, rfl, rfl, rfl, rfl, rfl, rfl, rfl, rfl⟩,
        id, id, fun hn => nodup_after_append hc hn⟩

theorem makeNameLoop_evolves (cat : Option String) (genV defV : ParticleV)
    (ifuel : Nat) : ∀ (n : Nat) (l : Language) (g : Rng),
    Evolves l (makeNameLoop cat genV defV ifuel n l g).2.1 := by
  intro n
  induction n with
  | zero => intro l g; exact evolves_refl l
  | succ n ih =>
    intro l g
    simp only [makeNameLoop]
    by_cases hr1 : (pyRandom g).1 < mkRat 1 2
    · rw [if_pos hr1]
      cases hgw : l.get_word cat (pyRandom g).2 ifuel with
      | mk w? rest =>
        obtain ⟨l1, g2⟩ := rest
        have he1 : Evolves l l1 := by
          have := get_word_evolves l cat (pyRandom g).2 ifuel
          rwa [hgw] at this
        cases w? with
        | none => exact he1
        | some w =>
          dsimp only
          rcases makeNameFinish_spec cat defV l1 g2 (pyCapitalize w) with
            ⟨g3, heq⟩ | ⟨g3, heq⟩ | ⟨nm, g3, hc, heq⟩ <;> rw [heq]
          · exact he1
          · exact evolves_trans he1 (ih l1 g3)
          · exact evolves_trans he1
              ⟨⟨rfl, rfl, rfl, rfl, rfl, rfl, rfl, rfl, rfl⟩, id, id,
                fun hn => nodup_after_append hc hn⟩
    · rw [if_neg hr1]
      cases hgw1 : l.get_word
          (if (pyRandom (pyRandom g).2).1 < mkRat 3 5 then cat else none)
          (pyRandom (pyRandom (pyRandom g).2).2).2 ifuel with
      | mk w1? rest =>
        obtain ⟨l1, g4⟩ := rest
        have he1 : Evolves l l1 := by
          have := get_word_evolves l
            (if (pyRandom (pyRandom g).2).1 < mkRat 3 5 then cat else none)
            (pyRandom (pyRandom (pyRandom g).2).2).2 ifuel
          rwa [hgw1] at this
        cases w1? with
        | none => exact he1
        | some w1 =>
          dsimp only
          cases hgw2 : l1.get_word
              (if (pyRandom (pyRandom (pyRandom g).2).2).1 < mkRat 3 5 then cat
                else none) g4 ifuel with
          | mk w2? rest2 =>
            obtain ⟨l2, g5⟩ := rest2
            have he2 : Evolves l l2 := by
              have := get_word_evolves l1
                (if (pyRandom (pyRandom (pyRandom g).2).2).1 < mkRat 3 5 then cat
                  else none) g4 ifuel
              rw [hgw2] at this
              exact evolves_trans he1 this
            cases w2? with
            | none => exact he2
            | some w2 =>
              dsimp only
              by_cases heqw : pyCapitalize w1 = pyCapitalize w2
              · rw [if_pos heqw]
                exact evolves_trans he2 (ih l2 g5)
              · rw [if_neg heqw]
                by_cases hreg : cat = some "region"
                · rw [if_pos hreg]
                  dsimp only
                  exact nameTail_evolves cat genV defV ifuel n ih l l2 g5
                    (if true = true then
                      [Sum.inr (pyCapitalize w1), Sum.inr (pyCapitalize w2)]
                    else [Sum.inr (pyCapitalize w1), genV,
                      Sum.inr (pyCapitalize w2)]) he2
                · rw [if_neg hreg]
                  dsimp only
                  exact nameTail_evolves cat genV defV ifuel n ih l l2
                    (pyRandom g5).2 _ he2

theorem resolveParticles_evolves (l : Language) (g : Rng) (fuel : Nat) :
    Evolves l (l.resolveParticles g fuel).2.1 := by
  simp only [Language.resolveParticles]
  cases hg1 : resolveParticle l l.genitive "of" g fuel with
  | mk gen? rest1 =>
    obtain ⟨la, ga⟩ := rest1
    have hea : Evolves l la := by
      have := (resolveParticle_spec l l.genitive "of" g fuel).1
      rwa [hg1] at this
    cases gen? with
    | none => exact hea
    | some genV =>
      cases hg2 : resolveParticle la la.definitive "the" ga fuel with
      | mk defn? rest2 =>
        obtain ⟨lb, gb⟩ := rest2
        have heb : Evolves la lb := by
          have := (resolveParticle_spec la la.definitive "the" ga fuel).1
          rwa [hg2] at this
        cases defn? with
        | none => exact evolves_trans hea heb
        | some defV => exact evolves_trans hea heb

theorem make_name_evolves (l : Language) (cat : Option String) (g : Rng)
    (fuel : Nat) : Evolves l (l.make_name cat g fuel).2.1 := by
  simp only [Language.make_name]
  cases hrp : l.resolveParticles g fuel with
  | mk pv? rest =>
    obtain ⟨l2, g2⟩ := rest
    have herp : Evolves l l2 := by
      have := resolveParticles_evolves l g fuel
      rwa [hrp] at this
    cases pv? with
    | none => exact herp
    | some pv =>
      obtain ⟨genV, defV⟩ := pv
      exact evolves_trans herp (makeNameLoop_evolves cat genV defV fuel fuel l2 g2)

/-! Claim theorems. -/

/-- C1, counterexample.  The claimed invariant — no two pooled morpheme-cache
entries are in substring relation — is not preserved by `get_morpheme`:
starting from the pristine `langAB` (whose caches trivially satisfy it), two
successive `get_morpheme` calls (the states `langAB1` and `langAB2`) store
`"pa"` and then `"p"`, and `"p"` is a proper substring of `"pa"`; the code's
check `morpheme in m` iterates over the cache's *lists*, so it tests exact
membership, not substring containment. -/
theorem c1_counterexample :
    substrFree langAB.morphemes ∧
    pooledEntries langAB2.morphemes = ["pa", "p"] ∧
    pySubstr "p" "pa" = true ∧
    ¬ substrFree langAB2.morphemes :=
  ⟨by decide, by decide, by decide, by decide⟩

/-- C1, amended.  The uniqueness check of `get_morpheme`, `get_word` and
`make_name` is exact membership pooled across all buckets of the respective
cache, not substring comparison: whenever the pooled morpheme, word and name
caches are free of exact duplicates, they remain so after any call to
`get_morpheme`, `get_word` or `make_name` (for the latter, all three caches,
since it exercises the other two generators internally). -/
theorem c1_amended (l : Language) (cat : Option String) (g : Rng) (fuel : Nat)
    (hm : cacheNodup l.morphemes) (hw : cacheNodup l.words)
    (hn : cacheNodup l.names) :
    cacheNodup (l.get_morpheme cat g fuel).2.1.morphemes ∧
    cacheNodup (l.get_morpheme cat g fuel).2.1.words ∧
    cacheNodup (l.get_morpheme cat g fuel).2.1.names ∧
    cacheNodup (l.get_word cat g fuel).2.1.morphemes ∧
    cacheNodup (l.get_word cat g fuel).2.1.words ∧
    cacheNodup (l.get_word cat g fuel).2.1.names ∧
    cacheNodup (l.make_name cat g fuel).2.1.morphemes ∧
    cacheNodup (l.make_name cat g fuel).2.1.words ∧
    cacheNodup (l.make_name cat g fuel).2.1.names := by
  obtain ⟨_, hm1, hw1, hn1⟩ := get_morpheme_evolves l cat g fuel
  obtain ⟨_, hm2, hw2, hn2⟩ := get_word_evolves l cat g fuel
  obtain ⟨_, hm3, hw3, hn3⟩ := make_name_evolves l cat g fuel
  exact ⟨hm1 hm, hw1 hw, hn1 hn, hm2 hm, hw2 hw, hn2 hn,
    hm3 hm, hw3 hw, hn3 hn⟩

/-- C1, witness for the amended theorem, at the pristine `langAB`. -/
theorem c1_witness :
    (cacheNodup langAB.morphemes ∧ cacheNodup langAB.words ∧
      cacheNodup langAB.names) ∧
    (cacheNodup (langAB.get_morpheme none rngAB 4).2.1.morphemes ∧
      cacheNodup (langAB.get_morpheme none rngAB 4).2.1.words ∧
      cacheNodup (langAB.get_morpheme none rngAB 4).2.1.names ∧
      cacheNodup (langAB.get_word none rngAB 4).2.1.morphemes ∧
      cacheNodup (langAB.get_word none rngAB 4).2.1.words ∧
      cacheNodup (langAB.get_word none rngAB 4).2.1.names ∧
      cacheNodup (langAB.make_name none rngAB 4).2.1.morphemes ∧
      cacheNodup (langAB.make_name none rngAB 4).2.1.words ∧
      cacheNodup (langAB.make_name none rngAB 4).2.1.names) :=
  ⟨⟨by decide, by decide, by decide⟩,
    c1_amended langAB none rngAB 4 (by decide) (by decide) (by decide)⟩

theorem c2_buildB (g : Rng) :
    buildSyllable phonemesB [('C', false), ('C', false)] g =
      ("pp", { g with pos := g.pos + 1 + 1 }) := by
  simp [buildSyllable, Phonemes.choose, Phonemes.get, phonemesB, pyChoice,
    Rng.nextNat, Nat.mod_one]

theorem c2_loopB : ∀ (n : Nat) (g : Rng),
    (makeSyllableLoop phonemesB [('C', false), ('C', false)]
      [semDoubled (process_restriction phonemesB "(.)\\1")] n g).1 = none := by
  intro n
  induction n with
  | zero => intro g; rfl
  | succ n ih =>
    intro g
    simp only [makeSyllableLoop]
    rw [c2_buildB g]
    have hany : (List.any [semDoubled (process_restriction phonemesB "(.)\\1")]
        fun m => m "pp") = true := by decide
    simp only [hany, if_true]
    exact ih _

/-- C2, counterexample.  Scenario B of the spec (inventory `C = {'p'}`,
structure `"CC"`, doubled-character restriction): after 100 attempts —
standing in for any configured bound — `make_syllable` has neither returned
a value nor failed; the code has no attempt bound and no `GenerationExhausted`
error, so the call simply keeps looping. -/
theorem c2_counterexample : (phonologyB.make_syllable rngZero 100).1 = none :=
  c2_loopB 100 rngZero

/-- C2, amended.  The rejection-sampling loops carry no attempt bound and the
code defines no `GenerationExhausted` error; in Scenario B every candidate is
`"pp"`, every candidate matches the restriction, and `make_syllable` never
terminates: for every attempt budget and every random stream, the loop is
still running (the bounded-attempt hardening demanded by the spec is not
implemented). -/
theorem c2_amended (fuel : Nat) (g : Rng) :
    (phonologyB.make_syllable g fuel).1 = none :=
  c2_loopB fuel g

theorem filter_lt_card (m N : Nat) (h : m ≤ N) :
    ((Finset.range N).filter fun r => r < m).card = m := by
  have hset : (Finset.range N).filter (fun r => r < m) = Finset.range m := by
    ext x
    simp only [Finset.mem_filter, Finset.mem_range]
    omega
  rw [hset, Finset.card_range]

/-- C3, counterexample.  `random.randint(0, count + bias)` is inclusive on
both ends, so with one stored morpheme and bias 10 the reuse draw has 12
equally likely outcomes, exactly one of which (`0 < 1`) reuses: the reuse
probability is `1/12`, not `count/(count+10) = 1/11` as claimed. -/
theorem c3_counterexample :
    reuseProbability 1 10 = 1 / 12 ∧ reuseProbability 1 10 ≠ 1 / 11 := by
  have h : reuseProbability 1 10 = 1 / 12 := by
    unfold reuseProbability
    rw [filter_lt_card 1 (1 + 10 + 1) (by omega), Finset.card_range]
    norm_num
  refine ⟨h, ?_⟩
  rw [h]
  norm_num

/-- C3, amended.  `get_morpheme` draws `random.randint(0, count + bias)`
with bias 10 for the omitted category and 1 otherwise; the draw is uniform
over the `count + bias + 1` integers of the inclusive range (every value is
reachable), the reuse branch — returning a uniformly chosen existing
morpheme of the bucket with the state unchanged — is taken exactly on draws
below `count`, and otherwise the synthesize-check-store loop runs; hence for
the anonymous bucket reuse occurs with probability `count/(count+11)`, not
`count/(count+10)`. -/
theorem c3_amended (l : Language) (cat : Option String) (g : Rng) (fuel : Nat) :
    (pyRandint 0 ((dictGet l.morphemes cat).length +
        (if cat = none then 10 else 1)) g).1 ≤
      (dictGet l.morphemes cat).length + (if cat = none then 10 else 1) ∧
    (∀ v, v ≤ (dictGet l.morphemes cat).length + (if cat = none then 10 else 1) →
      ∃ g', (pyRandint 0 ((dictGet l.morphemes cat).length +
        (if cat = none then 10 else 1)) g').1 = v) ∧
    ((pyRandint 0 ((dictGet l.morphemes cat).length +
        (if cat = none then 10 else 1)) g).1 < (dictGet l.morphemes cat).length →
      (l.get_morpheme cat g fuel).2.1 = l ∧
      ∀ m, (l.get_morpheme cat g fuel).1 = some m →
        m ∈ dictGet l.morphemes cat) ∧
    ((dictGet l.morphemes cat).length ≤
        (pyRandint 0 ((dictGet l.morphemes cat).length +
          (if cat = none then 10 else 1)) g).1 →
      l.get_morpheme cat g fuel =
        getMorphemeLoop cat fuel fuel l
          (pyRandint 0 ((dictGet l.morphemes cat).length +
            (if cat = none then 10 else 1)) g).2) ∧
    reuseProbability (dictGet l.morphemes cat).length 10 =
      ((dictGet l.morphemes cat).length : ℚ) /
        ((dictGet l.morphemes cat).length + 11) := by
  refine ⟨?_, ?_, ?_, ?_, ?_⟩
  · simp only [pyRandint, Rng.nextNat]
    have h := Nat.mod_lt (g.ints g.pos)
      (y := (dictGet l.morphemes cat).length + (if cat = none then 10 else 1) + 1 - 0)
      (by omega)
    omega
  · intro v hv
    refine ⟨⟨fun _ => v, fun _ => mkRat 0 1, 0⟩, ?_⟩
    simp only [pyRandint, Rng.nextNat]
    rw [Nat.mod_eq_of_lt (by omega)]
    omega
  · intro hd
    simp only [Language.get_morpheme]
    rw [if_pos hd]
    have hpos : 0 < (dictGet l.morphemes cat).length :=
      Nat.lt_of_le_of_lt (Nat.zero_le _) hd
    have hne : dictGet l.morphemes cat ≠ [] := List.length_pos.mp hpos
    refine ⟨rfl, ?_⟩
    intro m hm
    simp only [Option.some.injEq] at hm
    rw [← hm]
    exact pyChoice_mem (dictGet l.morphemes cat) _ hne
  · intro hge
    simp only [Language.get_morpheme]
    rw [if_neg (Nat.not_lt.mpr hge)]
  · unfold reuseProbability
    rw [filter_lt_card _ _ (by omega), Finset.card_range]
    push_cast
    ring_nf

theorem makeSyllableLoop_restriction (ph : Phonemes) (steps : List (Char × Bool))
    (compiled : List (String → Bool)) :
    ∀ (fuel : Nat) (g : Rng) (s : String),
      (makeSyllableLoop ph steps compiled fuel g).1 = some s →
      ∀ m ∈ compiled, m s = false := by
  intro fuel
  induction fuel with
  | zero =>
    intro g s h
    exact absurd h (by simp [makeSyllableLoop])
  | succ n ih =>
    intro g s h
    simp only [makeSyllableLoop] at h
    cases hb : buildSyllable ph steps g with
    | mk syl g' =>
      rw [hb] at h
      by_cases hany : (compiled.any fun m => m syl) = true
      · rw [if_pos hany] at h
        exact ih g' s h
      · rw [if_neg hany] at h
        simp only [Option.some.injEq] at h
        intro m hm
        have := List.any_eq_false.mp (Bool.not_eq_true _ ▸ hany) m hm
        rw [← h]
        simpa using this

/-- C4.  Every syllable returned by `make_syllable` passes every compiled
restriction: whenever any restriction's compiled matcher finds a match
anywhere in a candidate, the whole candidate is discarded and generation
restarts, so an accepted syllable matches no restriction (`sem` is the
abstract substring-search semantics of a compiled pattern). -/
theorem c4 (phon : Phonology) (g : Rng) (fuel : Nat) (s : String)
    (h : (phon.make_syllable g fuel).1 = some s) :
    ∀ r ∈ phon.restrictions,
      phon.sem (process_restriction phon.phonemes r) s = false := by
  intro r hr
  have hmem : phon.sem (process_restriction phon.phonemes r) ∈
      phon.restrictions.map fun r =>
        phon.sem (process_restriction phon.phonemes r) :=
    List.mem_map_of_mem _ hr
  simp only [Phonology.make_syllable] at h
  exact makeSyllableLoop_restriction _ _ _ fuel g s h _ hmem

/-- C4, witness: Scenario A's phonology with the doubled-character
restriction accepts `"pa"`, and `"pa"` matches no compiled restriction. -/
theorem c4_witness :
    ((phonologyA.make_syllable rngZero 1).1 = some "pa") ∧
    (∀ r ∈ phonologyA.restrictions,
      phonologyA.sem (process_restriction phonologyA.phonemes r) "pa" = false) :=
  ⟨by decide, c4 phonologyA rngZero 1 "pa" (by decide)⟩

theorem escRun_replicate (k : Nat) (t : Char) (h : t ≠ '\\') :
    escRun (List.replicate k '\\' ++ [t]) = k := by
  induction k with
  | zero => simp [escRun, h]
  | succ k ih => simp [List.replicate_succ, escRun, ih]

theorem processRestrictionGo_nil (ph : Phonemes) (fuel : Nat) :
    processRestrictionGo ph fuel [] = [] := by
  cases fuel <;> rfl

theorem escRun_cons_replicate (j : Nat) (t : Char) (hesc : t ≠ '\\') :
    escRun ('\\' :: (List.replicate j '\\' ++ [t])) = j + 1 := by
  have h2 := escRun_replicate (j + 1) t hesc
  rwa [List.replicate_succ, List.cons_append] at h2

theorem drop_cons_replicate (j : Nat) (t : Char) :
    ('\\' :: (List.replicate j '\\' ++ [t])).drop (j + 1) = [t] := by
  have h3 : '\\' :: (List.replicate j '\\' ++ [t]) =
      List.replicate (j + 1) '\\' ++ [t] := by
    rw [List.replicate_succ, List.cons_append]
  rw [h3]
  have h4 := List.drop_left (List.replicate (j + 1) '\\') [t]
  rwa [List.length_replicate] at h4

theorem go_odd (ph : Phonemes) (t : Char)
    (ht : (ph.get_categories).contains t = true) (hesc : t ≠ '\\')
    (r fuel : Nat) (hodd : r % 2 = 1) :
    processRestrictionGo ph (fuel + 1) (List.replicate r '\\' ++ [t]) =
      category_class ph t := by
  obtain ⟨j, rfl⟩ : ∃ j, r = j + 1 := ⟨r - 1, by omega⟩
  rw [List.replicate_succ, List.cons_append]
  simp only [processRestrictionGo]
  rw [escRun_cons_replicate j t hesc, drop_cons_replicate j t]
  have hcond : (decide ((j + 1) % 2 = 1) &&
      (ph.get_categories).contains t) = true := by
    rw [decide_eq_true hodd, ht]
    rfl
  dsimp only
  rw [if_pos hcond, processRestrictionGo_nil]
  simp

/-- C5, counterexample.  With category `C` over phonemes `abc`, the
restriction text `\\C` (an even, length-2 run of escapes before the tag) is
claimed to stay literal; the code instead rewrites it to `\[abc]` — the
matcher regex `(?:\\\\)*(?:\\)([cats])` matches the odd-length suffix of the
escape run, so even runs do not deactivate the substitution (the source's
own comment says the sequences are "NOT ESCAPABLE"). -/
theorem c5_counterexample :
    process_restriction phonemesC "\\\\C" = "\\[abc]" ∧
    process_restriction phonemesC "\\\\C" ≠ "\\\\C" :=
  ⟨by decide, by decide⟩

/-- C5, amended.  For a pattern consisting of `k` escape characters followed
by a category tag: with no escape the tag stays literal text; with an odd
run the whole run and tag are replaced by the category's bracket class; with
an even (positive) run the substitution still happens — one escape survives
and the odd-length remainder plus tag becomes the bracket class.  Doubled
escapes do not deactivate the substitution. -/
theorem c5_amended (ph : Phonemes) (t : Char) (k : Nat)
    (ht : (ph.get_categories).contains t = true) (hesc : t ≠ '\\') :
    process_restriction ph ⟨List.replicate k '\\' ++ [t]⟩ =
      ⟨if k = 0 then [t]
        else if k % 2 = 1 then category_class ph t
        else '\\' :: category_class ph t⟩ := by
  unfold process_restriction
  refine congrArg String.mk ?_
  have hlen : (String.mk (List.replicate k '\\' ++ [t])).toList.length = k + 1 := by
    show (List.replicate k '\\' ++ [t]).length = k + 1
    simp
  rw [hlen]
  show processRestrictionGo ph (k + 1) (List.replicate k '\\' ++ [t]) = _
  rcases Nat.eq_zero_or_pos k with hk0 | hkpos
  · subst hk0
    simp [processRestrictionGo, escRun, hesc]
  · rw [if_neg (by omega : ¬ k = 0)]
    by_cases hodd : k % 2 = 1
    · rw [if_pos hodd]
      exact go_odd ph t ht hesc k k hodd
    · rw [if_neg hodd]
      obtain ⟨j, rfl⟩ : ∃ j, k = j + 1 := ⟨k - 1, by omega⟩
      rw [List.replicate_succ, List.cons_append]
      simp only [processRestrictionGo]
      rw [escRun_cons_replicate j t hesc, drop_cons_replicate j t]
      have hje : ¬ (j + 1) % 2 = 1 := hodd
      have hjodd : j % 2 = 1 := by omega
      have hcond : (decide ((j + 1) % 2 = 1) &&
          (ph.get_categories).contains t) = false := by
        rw [decide_eq_false hje, Bool.false_and]
      dsimp only
      rw [if_neg (by rw [hcond]; exact Bool.false_ne_true)]
      congr 1
      obtain ⟨j2, rfl⟩ : ∃ j2, j = j2 + 1 := ⟨j - 1, by omega⟩
      exact go_odd ph t ht hesc (j2 + 1) (j2 + 1) hjodd

/-- C5, witness for the amended theorem at an even run of two escapes. -/
theorem c5_witness :
    ((phonemesC.get_categories).contains 'C' = true) ∧ ('C' ≠ '\\') ∧
    process_restriction phonemesC ⟨List.replicate 2 '\\' ++ ['C']⟩ =
      ⟨if 2 = 0 then ['C']
        else if 2 % 2 = 1 then category_class phonemesC 'C'
        else '\\' :: category_class phonemesC 'C'⟩ :=
  ⟨by decide, by decide, c5_amended phonemesC 'C' 2 (by decide) (by decide)⟩

/-- C6, counterexample.  A restriction whose placeholder names the absent
tag `X` does not make `Phonology` construction fail: `__init__` stores the
restrictions unexamined (only the structure string is validated), so the
construction succeeds and restriction processing is deferred to
`make_syllable`. -/
theorem c6_counterexample :
    exceptOk (Phonology.init phonemesC "C" ["\\X"] semNone) = true := by
  decide

/-- C6, amended.  Construction-time validation covers only the structure
template: whether `Phonology.init` succeeds is independent of the
restriction list (and of the regex engine), so a restriction referencing an
absent tag raises nothing at construction; and the placeholder for an absent
tag is not even substituted by restriction processing — `\t` with unknown
`t` is left unchanged (any failure it causes arises inside `make_syllable`,
when the processed pattern is compiled). -/
theorem c6_amended (ph : Phonemes) (st : String) (rs rs' : List String)
    (sem sem' : String → String → Bool) (t : Char)
    (h1 : (ph.get_categories).contains t = false) (h2 : t ≠ '\\') :
    exceptOk (Phonology.init ph st rs sem) =
      exceptOk (Phonology.init ph st rs' sem') ∧
    process_restriction ph ⟨['\\', t]⟩ = ⟨['\\', t]⟩ := by
  constructor
  · cases hv : validStructure ph.get_categories st <;>
      simp [Phonology.init, exceptOk, hv]
  · unfold process_restriction
    refine congrArg String.mk ?_
    show processRestrictionGo ph 2 ['\\', t] = ['\\', t]
    have hrun : escRun ['\\', t] = 1 := by simp [escRun, h2]
    have htail : processRestrictionGo ph 1 [t] = [t] := by
      have hrun0 : escRun [t] = 0 := by simp [escRun, h2]
      simp only [processRestrictionGo]
      rw [hrun0]
      simp
    have hmem : t ∉ ph.get_categories := by simpa using h1
    simp only [processRestrictionGo]
    rw [hrun]
    simp [hmem, escRun, h2]

/-- C6, witness for the amended theorem at the unknown tag `X`. -/
theorem c6_witness :
    ((phonemesC.get_categories).contains 'X' = false) ∧ ('X' ≠ '\\') ∧
    (exceptOk (Phonology.init phonemesC "C" ["\\X"] semNone) =
        exceptOk (Phonology.init phonemesC "C" [] semNone) ∧
      process_restriction phonemesC ⟨['\\', 'X']⟩ = ⟨['\\', 'X']⟩) :=
  ⟨by decide, by decide,
    c6_amended phonemesC "C" ["\\X"] [] semNone semNone 'X' (by decide) (by decide)⟩

theorem totalWeight_cons (p : String) (f : ℚ) (rest : List (String × ℚ)) :
    totalWeight ((p, f) :: rest) = f + totalWeight rest := by
  simp [totalWeight]

theorem totalWeight_nonneg (entries : List (String × ℚ))
    (hpos : ∀ p ∈ entries, 0 < p.2) : 0 ≤ totalWeight entries := by
  induction entries with
  | nil => simp [totalWeight]
  | cons pf rest ih =>
    obtain ⟨p, f⟩ := pf
    rw [totalWeight_cons]
    have h1 : 0 < f := hpos (p, f) (by simp)
    have h2 : 0 ≤ totalWeight rest := ih fun x hx => hpos x (by simp [hx])
    linarith

theorem totalWeight_pos (entries : List (String × ℚ)) (hne : entries ≠ [])
    (hpos : ∀ p ∈ entries, 0 < p.2) : 0 < totalWeight entries := by
  cases entries with
  | nil => exact absurd rfl hne
  | cons pf rest =>
    obtain ⟨p, f⟩ := pf
    rw [totalWeight_cons]
    have h1 : 0 < f := hpos (p, f) (by simp)
    have h2 : 0 ≤ totalWeight rest :=
      totalWeight_nonneg rest fun x hx => hpos x (by simp [hx])
    linarith

theorem chooseWeightedGo_first (sample : ℚ) :
    ∀ (entries : List (String × ℚ)) (acc : ℚ), entries ≠ [] →
      sample ≤ acc + totalWeight entries →
      ∃ i, ∃ hi : i < entries.length,
        chooseWeightedGo sample acc entries = some (entries.get ⟨i, hi⟩).1 ∧
        sample ≤ acc + totalWeight (entries.take (i + 1)) ∧
        ∀ j < i, acc + totalWeight (entries.take (j + 1)) < sample := by
  intro entries
  induction entries with
  | nil => intro acc hne _; exact absurd rfl hne
  | cons pf rest ih =>
    intro acc _ hle
    obtain ⟨p, f⟩ := pf
    by_cases hc : sample ≤ acc + f
    · refine ⟨0, by simp, ?_, ?_, ?_⟩
      · simp [chooseWeightedGo, hc]
      · simpa [totalWeight] using hc
      · intro j hj
        omega
    · have hrest : rest ≠ [] := by
        intro h0
        subst h0
        rw [totalWeight_cons] at hle
        simp [totalWeight] at hle
        exact hc (by linarith)
      have hle' : sample ≤ (acc + f) + totalWeight rest := by
        rw [totalWeight_cons] at hle
        linarith
      obtain ⟨i, hi, hgo, hub, hlb⟩ := ih (acc + f) hrest hle'
      refine ⟨i + 1, by simpa using Nat.succ_lt_succ hi, ?_, ?_, ?_⟩
      · simpa [chooseWeightedGo, hc] using hgo
      · rw [List.take_succ_cons, totalWeight_cons]
        linarith
      · intro j hj
        cases j with
        | zero =>
          simp only [List.take_succ_cons, List.take_zero, totalWeight_cons]
          have : ¬ sample ≤ acc + f := hc
          simp [totalWeight]
          linarith [not_le.mp hc]
        | succ j2 =>
          have hlow := hlb j2 (by omega)
          rw [List.take_succ_cons, totalWeight_cons]
          linarith

theorem chooseWeightedGo_last (sample : ℚ) :
    ∀ (entries : List (String × ℚ)) (acc : ℚ) (hne : entries ≠ []),
      (∀ p ∈ entries, 0 < p.2) → sample = acc + totalWeight entries →
      chooseWeightedGo sample acc entries = some ((entries.getLast hne).1) := by
  intro entries
  induction entries with
  | nil => intro acc hne _ _; exact absurd rfl hne
  | cons pf rest ih =>
    intro acc hne hpos heq
    obtain ⟨p, f⟩ := pf
    cases rest with
    | nil =>
      have hle : sample ≤ acc + f := by
        rw [heq, totalWeight_cons]
        simp [totalWeight]
      simp [chooseWeightedGo, hle, List.getLast]
    | cons q rest2 =>
      have hpos' : ∀ x ∈ q :: rest2, 0 < x.2 := fun x hx => hpos x (by simp [hx])
      have htw : 0 < totalWeight (q :: rest2) :=
        totalWeight_pos _ (by simp) hpos'
      have hnc : ¬ sample ≤ acc + f := by
        rw [heq, totalWeight_cons]
        intro hx
        linarith
      have hrec := ih (acc + f) (by simp) hpos'
        (by rw [heq, totalWeight_cons]; ring)
      conv_lhs => rw [chooseWeightedGo]
      rw [if_neg hnc, hrec]
      simp [List.getLast_cons]

/-- C7.  For a weighted category with positive weights and a draw `sample`
in `[0, totalWeight]`, the accumulate-and-compare walk of `choose` returns
the first entry whose cumulative weight reaches the draw (`sample ≤`
cumulative, i.e. cumulative `≥ sample`, with every earlier cumulative below
the draw), and the maximal draw — `sample = totalWeight` — resolves to the
last entry; in particular a symbol is always returned. -/
theorem c7 (entries : List (String × ℚ)) (sample : ℚ) (hne : entries ≠ [])
    (hpos : ∀ p ∈ entries, 0 < p.2) (h0 : 0 ≤ sample)
    (hs : sample ≤ totalWeight entries) :
    (∃ i, ∃ hi : i < entries.length,
      chooseWeighted entries sample = some (entries.get ⟨i, hi⟩).1 ∧
      sample ≤ totalWeight (entries.take (i + 1)) ∧
      ∀ j < i, totalWeight (entries.take (j + 1)) < sample) ∧
    (sample = totalWeight entries →
      chooseWeighted entries sample = some ((entries.getLast hne).1)) := by
  constructor
  · obtain ⟨i, hi, hgo, hub, hlb⟩ :=
      chooseWeightedGo_first sample entries 0 hne (by simpa using hs)
    exact ⟨i, hi, hgo, by simpa using hub, fun j hj => by simpa using hlb j hj⟩
  · intro he
    exact chooseWeightedGo_last sample entries 0 hne hpos (by simpa using he)

/-- C7, witness: the spec's `{a: 1, b: 3}` distribution at the maximal draw
`4`, which resolves to the last entry `"b"`. -/
theorem c7_witness :
    (weightedAB ≠ [] ∧ (∀ p ∈ weightedAB, 0 < p.2) ∧ (0 : ℚ) ≤ 4 ∧
      (4 : ℚ) ≤ totalWeight weightedAB) ∧
    ((∃ i, ∃ hi : i < weightedAB.length,
      chooseWeighted weightedAB 4 = some (weightedAB.get ⟨i, hi⟩).1 ∧
      (4 : ℚ) ≤ totalWeight (weightedAB.take (i + 1)) ∧
      ∀ j < i, totalWeight (weightedAB.take (j + 1)) < 4) ∧
    ((4 : ℚ) = totalWeight weightedAB →
      chooseWeighted weightedAB 4 =
        some ((weightedAB.getLast (by simp [weightedAB])).1))) :=
  ⟨⟨by simp [weightedAB], by norm_num [weightedAB], by norm_num,
      by norm_num [totalWeight, weightedAB]⟩,
    c7 weightedAB 4 (by simp [weightedAB]) (by norm_num [weightedAB])
      (by norm_num) (by norm_num [totalWeight, weightedAB])⟩

theorem foldl_append_init (o : Orthography) :
    ∀ (l : List Char) (init : String),
      l.foldl (fun spelled c => spelled ++ spellChar o c) init =
        init ++ l.foldl (fun spelled c => spelled ++ spellChar o c) "" := by
  intro l
  induction l with
  | nil =>
    intro init
    simp
  | cons c rest ih =>
    intro init
    rw [List.foldl_cons, List.foldl_cons, ih (init ++ spellChar o c),
      ih ("" ++ spellChar o c)]
    have hempty : ("" : String) ++ spellChar o c = spellChar o c := by simp
    rw [hempty, String.append_assoc]

/-- C8.  `spell` maps each character of the input independently through the
substitution chain — the consonant map, then the vowel map, then the
built-in default orthography, else the character unchanged (`spellChar`) —
and concatenates the per-character results in input order; consequently it
is a homomorphism for string concatenation. -/
theorem c8 (o : Orthography) (word w1 w2 : String) :
    o.spell word = String.join (word.toList.map (spellChar o)) ∧
    o.spell (w1 ++ w2) = o.spell w1 ++ o.spell w2 := by
  have hjoin : ∀ w : String,
      o.spell w = String.join (w.toList.map (spellChar o)) := by
    intro w
    show w.toList.foldl (fun spelled c => spelled ++ spellChar o c) "" =
      (w.toList.map (spellChar o)).foldl (fun r s => r ++ s) ""
    rw [List.foldl_map]
  refine ⟨hjoin word, ?_⟩
  show (w1 ++ w2).toList.foldl (fun spelled c => spelled ++ spellChar o c) "" = _
  have htl : (w1 ++ w2).toList = w1.toList ++ w2.toList := by
    cases w1
    cases w2
    rfl
  rw [htl, List.foldl_append]
  exact foldl_append_init o w2.toList _

/-- C9.  Exact-duplicate freedom, pooled across buckets: a successful
`get_morpheme` either reuses an existing member of its bucket without
touching any cache, or appends its result to the category bucket only after
the membership check against every bucket's list came back negative; the
same holds for `get_word` and the word cache; and `make_name` preserves
pooled duplicate-freedom of the name cache (its single append is likewise
membership-checked). -/
theorem c9 (l : Language) (cat : Option String) (g : Rng) (fuel : Nat)
    (m w : String)
    (hm : (l.get_morpheme cat g fuel).1 = some m)
    (hw : (l.get_word cat g fuel).1 = some w) :
    ((m ∈ dictGet l.morphemes cat ∧ (l.get_morpheme cat g fuel).2.1 = l) ∨
      (inAnyBucket l.morphemes m = false ∧
        (l.get_morpheme cat g fuel).2.1 =
          { l with morphemes := dictAppend l.morphemes cat m })) ∧
    ((w ∈ dictGet l.words cat ∧ (l.get_word cat g fuel).2.1.words = l.words) ∨
      (inAnyBucket l.words w = false ∧
        (l.get_word cat g fuel).2.1.words = dictAppend l.words cat w)) ∧
    (cacheNodup l.names → cacheNodup (l.make_name cat g fuel).2.1.names) := by
  refine ⟨?_, ?_, (make_name_evolves l cat g fuel).2.2.2⟩
  · rcases get_morpheme_spec l cat g fuel with ⟨hmem, hst⟩ | ⟨m', hm', hc, hst⟩
    · exact Or.inl ⟨hmem m hm, hst⟩
    · rw [hm'] at hm
      simp only [Option.some.injEq] at hm
      subst hm
      exact Or.inr ⟨hc, hst⟩
  · rcases (get_word_spec l cat g fuel).2 with ⟨hwords, hmem⟩ | ⟨w', hw', hc, hset⟩
    · exact Or.inl ⟨hmem w hw, hwords⟩
    · rw [hw'] at hw
      simp only [Option.some.injEq] at hw
      subst hw
      exact Or.inr ⟨hc, hset⟩

/-- C9, witness: on the pristine `langAB` with the all-zero stream, both
generators succeed (each returns `"p"`). -/
theorem c9_witness :
    ((langAB.get_morpheme none rngZero 2).1 = some "p" ∧
      (langAB.get_word none rngZero 2).1 = some "p") ∧
    ((("p" ∈ dictGet langAB.morphemes none ∧
        (langAB.get_morpheme none rngZero 2).2.1 = langAB) ∨
      (inAnyBucket langAB.morphemes "p" = false ∧
        (langAB.get_morpheme none rngZero 2).2.1 =
          { langAB with morphemes := dictAppend langAB.morphemes none "p" })) ∧
    (("p" ∈ dictGet langAB.words none ∧
        (langAB.get_word none rngZero 2).2.1.words = langAB.words) ∨
      (inAnyBucket langAB.words "p" = false ∧
        (langAB.get_word none rngZero 2).2.1.words =
          dictAppend langAB.words none "p")) ∧
    (cacheNodup langAB.names →
      cacheNodup (langAB.make_name none rngZero 2).2.1.names)) :=
  ⟨⟨by decide, by decide⟩,
    c9 langAB none rngZero 2 "p" "p" (by decide) (by decide)⟩

/-- C10.  When the configured genitive and definitive particle lists are
empty, the particle-resolution prelude that `make_name` runs before building
any name candidate obtains both particles from `get_morpheme`: the resolved
genitive is a generated morpheme present in the `'of'` bucket afterwards and
the resolved definitive one in the `'the'` bucket — so the prelude may
append to those two buckets even when the eventual name contains no
particle — while every other morpheme bucket is left exactly as it was. -/
theorem c10 (l : Language) (g : Rng) (fuel : Nat) (pv : ParticleV × ParticleV)
    (hg : l.genitive = []) (hd : l.definitive = [])
    (hres : (l.resolveParticles g fuel).1 = some pv) :
    (∃ gm, pv.1 = Sum.inr gm ∧
      gm ∈ dictGet (l.resolveParticles g fuel).2.1.morphemes (some "of")) ∧
    (∃ dm, pv.2 = Sum.inr dm ∧
      dm ∈ dictGet (l.resolveParticles g fuel).2.1.morphemes (some "the")) ∧
    (∀ k, k ≠ some "of" → k ≠ some "the" →
      dictGet (l.resolveParticles g fuel).2.1.morphemes k =
        dictGet l.morphemes k) := by
  simp only [Language.resolveParticles] at hres ⊢
  cases hg1 : resolveParticle l l.genitive "of" g fuel with
  | mk gen? rest1 =>
    obtain ⟨la, ga⟩ := rest1
    rw [hg1] at hres
    have hspec1 := resolveParticle_spec l l.genitive "of" g fuel
    rw [hg1] at hspec1
    obtain ⟨he1, hw1, hn1, hf1, hp1⟩ := hspec1
    cases gen? with
    | none => exact absurd hres (by simp)
    | some genV =>
      have hla : la.definitive = l.definitive := (he1.1).2.2.2.2.2.2.2.2
      cases hg2 : resolveParticle la la.definitive "the" ga fuel with
      | mk defn? rest2 =>
        obtain ⟨lb, gb⟩ := rest2
        rw [hg2] at hres
        have hspec2 := resolveParticle_spec la la.definitive "the" ga fuel
        rw [hg2] at hspec2
        obtain ⟨he2, hw2, hn2, hf2, hp2⟩ := hspec2
        cases defn? with
        | none => exact absurd hres (by simp)
        | some defV =>
          have hpv : pv = (genV, defV) := by
            simpa using hres.symm
          subst hpv
          obtain ⟨hg1m, -⟩ := hp1 genV rfl
          obtain ⟨gm, hgm, hgmmem⟩ := hg1m hg
          obtain ⟨hg2m, -⟩ := hp2 defV rfl
          obtain ⟨dm, hdm, hdmmem⟩ := hg2m (by rwa [hla])
          have hf1' : ∀ k, k ≠ some "of" →
              dictGet la.morphemes k = dictGet l.morphemes k := fun k hk => hf1 k hk
          have hf2' : ∀ k, k ≠ some "the" →
              dictGet lb.morphemes k = dictGet la.morphemes k := fun k hk => hf2 k hk
          have hgmmem' : gm ∈ dictGet la.morphemes (some "of") := hgmmem
          have hdmmem' : dm ∈ dictGet lb.morphemes (some "the") := hdmmem
          refine ⟨⟨gm, hgm, ?_⟩, ⟨dm, hdm, ?_⟩, ?_⟩
          · show gm ∈ dictGet lb.morphemes (some "of")
            rw [hf2' (some "of") (by simp)]
            exact hgmmem'
          · exact hdmmem'
          · intro k hk1 hk2
            show dictGet lb.morphemes k = dictGet l.morphemes k
            rw [hf2' k hk2]
            exact hf1' k hk1

/-- C10, witness: on the pristine `langAB` (both particle lists empty) with
the stream `rngRP`, resolution produces the generated particles `"p"` and
`"ap"`. -/
theorem c10_witness :
    (langAB.genitive = [] ∧ langAB.definitive = [] ∧
      (langAB.resolveParticles rngRP 4).1 =
        some (Sum.inr "p", Sum.inr "ap")) ∧
    ((∃ gm, (Sum.inr "p" : ParticleV) = Sum.inr gm ∧
        gm ∈ dictGet (langAB.resolveParticles rngRP 4).2.1.morphemes
          (some "of")) ∧
      (∃ dm, (Sum.inr "ap" : ParticleV) = Sum.inr dm ∧
        dm ∈ dictGet (langAB.resolveParticles rngRP 4).2.1.morphemes
          (some "the")) ∧
      (∀ k, k ≠ some "of" → k ≠ some "the" →
        dictGet (langAB.resolveParticles rngRP 4).2.1.morphemes k =
          dictGet langAB.morphemes k)) :=
  ⟨⟨by decide, by decide, by decide⟩,
    c10 langAB rngRP 4 (Sum.inr "p", Sum.inr "ap") (by decide) (by decide)
      (by decide)⟩

end NamingLang
